import Mathlib

/-!
# 2Day2Do — verification of the task-list client (`src/App.tsx`)

A shallow embedding of the state and handlers of the single-page to-do
application. The remote store (Supabase) is modelled by explicit
success/failure parameters: each handler takes the outcome of its remote
call(s) as an argument and returns the resulting local state together with
the request(s) it issued, so that both the state transition and the issued
remote traffic can be reasoned about.

Numbers are modelled as `Int` (JavaScript numbers; every value involved is
integral and far below 2^53, so floating point is exact on them).
-/

namespace TwoDayTwoDo

/-- The `Task` record (`interface Task` in `App.tsx`, mirroring the
`tasks` table). `created_at` is the timestamp in milliseconds since the
epoch (the value `new Date(createdAt).getTime()` yields). -/
structure Task where
  id : String
  text : String
  notes : String
  priority : Int
  user_id : String
  created_at : Int
deriving Repr, DecidableEq

/-- The component state of `App` that the data operations touch:
`tasks`, `newTask`, `selectedTask`, `notes`. -/
structure AppState where
  tasks : List Task
  newTask : String
  selectedTask : Option Task
  notes : String
deriving Repr, DecidableEq

/-- The `sortType` state: `'priority' | 'age'`. -/
inductive SortType where
  | priority
  | age
deriving Repr, DecidableEq

/-- The `sortOrder` state: `'asc' | 'desc'`. -/
inductive SortOrder where
  | asc
  | desc
deriving Repr, DecidableEq

/-- The sort-related part of the component state. -/
structure SortState where
  sortType : SortType
  sortOrder : SortOrder
deriving Repr, DecidableEq

/-- Handler `toggleSort` from `App.tsx`: in priority mode switch to age mode with
descending order; otherwise flip only the order. -/
def toggleSort (s : SortState) : SortState :=
  match s.sortType with
  | SortType.priority => ⟨SortType.age, SortOrder.desc⟩
  | SortType.age =>
      ⟨s.sortType, match s.sortOrder with
        | SortOrder.asc => SortOrder.desc
        | SortOrder.desc => SortOrder.asc⟩

/-- The flip applied to `sortOrder` by `setSortOrder(current => ...)`. -/
def flipOrder : SortOrder → SortOrder
  | SortOrder.asc => SortOrder.desc
  | SortOrder.desc => SortOrder.asc

/-- Function `formatTaskAge` from `App.tsx`, with the two clock readings made
explicit: `created = new Date(createdAt).getTime()`, `now = Date.now()`,
both in milliseconds. `Math.floor` of a quotient of integers is floor
division (`Int.fdiv`). -/
def formatTaskAge (created now : Int) : String :=
  let diffMinutes := Int.fdiv (now - created) (1000 * 60)
  if diffMinutes < 60 then
    if diffMinutes < 1 then "Just now"
    else toString diffMinutes ++ " minute" ++ (if diffMinutes = 1 then "" else "s") ++ " ago"
  else
    let diffHours := Int.fdiv diffMinutes 60
    if diffHours < 24 then
      toString diffHours ++ " hour" ++ (if diffHours = 1 then "" else "s") ++ " ago"
    else
      let diffDays := Int.fdiv diffHours 24
      if diffDays < 30 then
        toString diffDays ++ " day" ++ (if diffDays = 1 then "" else "s") ++ " ago"
      else
        let diffMonths := Int.fdiv diffDays 30
        toString diffMonths ++ " month" ++ (if diffMonths = 1 then "" else "s") ++ " ago"

/-- JavaScript `String.prototype.trim`: strip leading and trailing
whitespace. Modelled over the character list so that it is fully
executable (core `String.trim` agrees on these inputs but is defined by
well-founded recursion over byte positions). -/
def jsTrim (s : String) : String :=
  String.mk (((s.data.dropWhile Char.isWhitespace).reverse.dropWhile Char.isWhitespace).reverse)

/-- The row `addTask` sends in its insert call:
`{ text: newTask, notes: '', priority: tasks.length, user_id: user.id }`. -/
structure InsertReq where
  text : String
  notes : String
  priority : Int
  user_id : String
deriving Repr, DecidableEq

/-- Handler `fetchTasks` from `App.tsx`. `user` is the session user's id (or
`none` when signed out); `result` is the outcome of the select call:
`none` = error, `some d` = success with payload `d` (`d = none` models a
null `data`, replaced by `[]` via `data ?? []`). -/
def fetchTasks (s : AppState) (user : Option String)
    (result : Option (Option (List Task))) : AppState :=
  match user with
  | none => s
  | some _ =>
    match result with
    | none => s
    | some d => { s with tasks := d.getD [] }

/-- Handler `addTask` from `App.tsx`. `result` is the outcome of the insert call
(`some row` = the created row returned by the store, `none` = error).
Returns the new state together with the insert request issued, if any. -/
def addTask (s : AppState) (user : Option String) (result : Option Task) :
    AppState × Option InsertReq :=
  if jsTrim s.newTask = "" then (s, none)
  else
    match user with
    | none => (s, none)
    | some uid =>
      let req : InsertReq := ⟨s.newTask, "", (s.tasks.length : Int), uid⟩
      match result with
      | none => (s, some req)
      | some row => ({ s with tasks := s.tasks ++ [row], newTask := "" }, some req)

/-- Handler `removeTask` from `App.tsx`. `ok` is the outcome of the delete call. -/
def removeTask (s : AppState) (tid : String) (ok : Bool) : AppState :=
  if ok then
    let s1 := { s with tasks := s.tasks.filter (fun t => t.id != tid) }
    if s.selectedTask.any (fun t => t.id == tid) then
      { s1 with selectedTask := none, notes := "" }
    else s1
  else s

/-- Handler `updateNotes` from `App.tsx`. `ok` is the outcome of the update call.
Returns the new state together with the update request issued, if any:
`(id, notes)` for `update({ notes: newNotes }).eq('id', selectedTask.id)`. -/
def updateNotes (s : AppState) (newNotes : String) (ok : Bool) :
    AppState × Option (String × String) :=
  match s.selectedTask with
  | none => (s, none)
  | some sel =>
    if ok then
      ({ s with
          notes := newNotes,
          tasks := s.tasks.map (fun t =>
            if t.id == sel.id then { t with notes := newNotes } else t) },
       some (sel.id, newNotes))
    else (s, some (sel.id, newNotes))

/-- JavaScript `Array.prototype.findIndex`: the index of the first element
satisfying `p`, or `-1` when no element does. -/
def findIndex (p : Task → Bool) : List Task → Int
  | [] => -1
  | t :: ts =>
    if p t then 0
    else if findIndex p ts = -1 then -1 else findIndex p ts + 1

/-- Function `arrayMove` from `@dnd-kit/sortable`: copy the array, `splice` out the
element at index `i` and `splice` it back in at index `j` (a negative
index counts from the end, as in JavaScript `splice`; the insertion
position is clamped to the shortened array). In the app both indices are
produced by `findIndex` over the rendered tasks, so they lie in
`[0, length)`; the out-of-range removal, which in JavaScript would insert
`undefined`, is modelled as a no-op. -/
def arrayMove (l : List Task) (i j : Int) : List Task :=
  let f : Nat := if i < 0 then ((l.length : Int) + i).toNat else i.toNat
  match l.get? f with
  | none => l
  | some x =>
    let removed := l.eraseIdx f
    let g : Nat := if j < 0 then ((l.length : Int) + j).toNat else min j.toNat removed.length
    removed.take g ++ x :: removed.drop g

/-- The per-row update loop of `handleDragEnd`: for each `(index, task)` of
`newTasks.entries()` issue `update({ priority: index }).eq('id', task.id)`.
`ok k` is the outcome of the call for index `k`; the loop throws out of the
`for` at the first failing call. Returns the calls issued — `(id, new
priority)` in order — and whether all of them succeeded. `i` is the index
of the first remaining row. -/
def runUpdates (ok : Nat → Bool) : List Task → Nat → List (String × Int) × Bool
  | [], _ => ([], true)
  | t :: ts, i =>
    if ok i then
      let r := runUpdates ok ts (i + 1)
      ((t.id, (i : Int)) :: r.1, r.2)
    else ([(t.id, (i : Int))], false)

/-- Handler `handleDragEnd` from `App.tsx`. `activeId`/`overId` are the dragged and
drop-target item ids from the drag event; `ok` gives the outcomes of the
per-row update calls. Returns the new local task list and the update calls
issued. -/
def handleDragEnd (tasks : List Task) (activeId overId : String) (ok : Nat → Bool) :
    List Task × List (String × Int) :=
  if activeId == overId then (tasks, [])
  else
    let oldIndex := findIndex (fun t => t.id == activeId) tasks
    let newIndex := findIndex (fun t => t.id == overId) tasks
    let newTasks := arrayMove tasks oldIndex newIndex
    let r := runUpdates ok newTasks 0
    (if r.2 then newTasks else tasks, r.1)

/-- The argument of `getAdjacentTask`: `'next' | 'prev'`. -/
inductive Direction where
  | next
  | prev
deriving Repr, DecidableEq

/-- Handler `getAdjacentTask` from `App.tsx`: the cyclic neighbour of the selected
task in the rendered list. JavaScript `%` agrees with `Int.emod` here
because both operands are non-negative at this point. -/
def getAdjacentTask (tasks : List Task) (selected : Option Task)
    (dir : Direction) : Option Task :=
  match selected with
  | none => none
  | some sel =>
    if tasks.length = 0 then none
    else
      let currentIndex := findIndex (fun t => t.id == sel.id) tasks
      if currentIndex = -1 then none
      else
        let len : Int := (tasks.length : Int)
        let newIndex : Int :=
          match dir with
          | Direction.next => (currentIndex + 1) % len
          | Direction.prev => (currentIndex - 1 + len) % len
        tasks.get? newIndex.toNat

/-- A concrete task used to instantiate theorems on sample inputs. -/
def wTask1 : Task := ⟨"a", "task a", "", 0, "u1", 0⟩

/-- A second concrete task used to instantiate theorems on sample inputs. -/
def wTask2 : Task := ⟨"b", "task b", "n0", 1, "u1", 0⟩

/-- A third concrete task used to instantiate theorems on sample inputs. -/
def wTask3 : Task := ⟨"c", "task c", "", 2, "u1", 0⟩

/-- A concrete app state: two tasks, the second one selected. -/
def wState : AppState := ⟨[wTask1, wTask2], "", some wTask2, "n0"⟩

/-- The function `findIndex` never returns anything below `-1`. -/
theorem neg_one_le_findIndex (p : Task → Bool) (l : List Task) :
    -1 ≤ findIndex p l := by
  induction l with
  | nil => simp [findIndex]
  | cons t ts ih =>
    by_cases hp : p t
    · simp [findIndex, hp]
    · rw [findIndex, if_neg (by simp [hp])]
      by_cases hr : findIndex p ts = -1
      · rw [if_pos hr]
      · rw [if_neg hr]
        omega

/-- The function `findIndex` is always below the length of the list. -/
theorem findIndex_lt_length (p : Task → Bool) (l : List Task) :
    findIndex p l < (l.length : Int) := by
  induction l with
  | nil => simp [findIndex]
  | cons t ts ih =>
    by_cases hp : p t
    · simp [findIndex, hp]
    · rw [findIndex, if_neg (by simp [hp])]
      by_cases hr : findIndex p ts = -1
      · rw [if_pos hr]
        simp only [List.length_cons]
        push_cast
        omega
      · rw [if_neg hr]
        simp only [List.length_cons]
        push_cast
        omega

/-- When `findIndex` returns a non-negative index, the list holds an
element satisfying the predicate at that position. -/
theorem findIndex_get? (p : Task → Bool) (l : List Task) (i : Nat)
    (h : findIndex p l = (i : Int)) :
    ∃ t, l.get? i = some t ∧ p t = true := by
  induction l generalizing i with
  | nil =>
    exact absurd h (by simp [findIndex])
  | cons t ts ih =>
    by_cases hp : p t
    · rw [findIndex, if_pos hp] at h
      have hi : i = 0 := by exact_mod_cast h.symm
      subst hi
      exact ⟨t, rfl, hp⟩
    · rw [findIndex, if_neg (by simp [hp])] at h
      by_cases hr : findIndex p ts = -1
      · rw [if_pos hr] at h
        exact absurd h (by omega)
      · rw [if_neg hr] at h
        have h0 : 0 ≤ findIndex p ts := by
          have := neg_one_le_findIndex p ts
          omega
        obtain ⟨j, hj⟩ := Int.eq_ofNat_of_zero_le h0
        have hij : i = j + 1 := by
          rw [hj] at h
          omega
        subst hij
        obtain ⟨u, hu, hpu⟩ := ih j hj
        exact ⟨u, by simpa using hu, hpu⟩

/-- The function `findIndex` returns `-1` exactly when no element satisfies the
predicate. -/
theorem findIndex_eq_neg_one_iff (p : Task → Bool) (l : List Task) :
    findIndex p l = -1 ↔ ∀ t ∈ l, p t = false := by
  induction l with
  | nil => simp [findIndex]
  | cons t ts ih =>
    by_cases hp : p t
    · rw [findIndex, if_pos hp]
      simp [hp]
    · rw [findIndex, if_neg (by simp [hp])]
      by_cases hr : findIndex p ts = -1
      · rw [if_pos hr]
        simp only [List.mem_cons]
        constructor
        · intro _ u hu
          rcases hu with rfl | hu
          · simpa using hp
          · exact (ih.mp hr) u hu
        · intro _
          trivial
      · rw [if_neg hr]
        have h0 : 0 ≤ findIndex p ts := by
          have := neg_one_le_findIndex p ts
          omega
        constructor
        · intro h
          exact absurd h (by omega)
        · intro h
          exact absurd (ih.mpr fun u hu => h u (List.mem_cons_of_mem t hu)) hr

/-- Erasing at the junction point of an append removes the head of the
right part. -/
theorem eraseIdx_append_cons (l1 l2 : List Task) (x : Task) :
    (l1 ++ x :: l2).eraseIdx l1.length = l1 ++ l2 := by
  induction l1 with
  | nil => rfl
  | cons a as ih => simpa using ih

/-- Evaluating `arrayMove` at in-range non-negative indices: the element at `oi` is
removed and re-inserted at position `ni`. -/
theorem arrayMove_natCast_eq (l : List Task) (oi ni : Nat) (x : Task)
    (hx : l.get? oi = some x) (hni : ni < l.length) :
    arrayMove l (oi : Int) (ni : Int) =
      (l.eraseIdx oi).take ni ++ x :: (l.eraseIdx oi).drop ni := by
  have hoi : oi < l.length := by
    by_contra hc
    rw [List.get?_eq_none.mpr (by omega)] at hx
    exact Option.noConfusion hx
  simp only [arrayMove]
  rw [if_neg (by omega : ¬ (oi : Int) < 0), Int.toNat_natCast, hx,
    if_neg (by omega : ¬ (ni : Int) < 0), Int.toNat_natCast,
    List.length_eraseIdx_of_lt hoi, Nat.min_eq_left (by omega)]

/-- The length of the left part of the `arrayMove` decomposition. -/
theorem arrayMove_take_length (l : List Task) (oi ni : Nat)
    (hoi : oi < l.length) (hni : ni < l.length) :
    ((l.eraseIdx oi).take ni).length = ni := by
  rw [List.length_take, List.length_eraseIdx_of_lt hoi]
  omega

/-- The function `arrayMove` preserves the length of the list. -/
theorem arrayMove_length (l : List Task) (oi ni : Nat) (x : Task)
    (hx : l.get? oi = some x) (hni : ni < l.length) :
    (arrayMove l (oi : Int) (ni : Int)).length = l.length := by
  have hoi : oi < l.length := by
    by_contra hc
    rw [List.get?_eq_none.mpr (by omega)] at hx
    exact Option.noConfusion hx
  rw [arrayMove_natCast_eq l oi ni x hx hni]
  simp only [List.length_append, List.length_cons, List.length_take,
    List.length_drop, List.length_eraseIdx_of_lt hoi]
  omega

/-- After `arrayMove`, the moved element sits at the target index. -/
theorem arrayMove_get_target (l : List Task) (oi ni : Nat) (x : Task)
    (hx : l.get? oi = some x) (hni : ni < l.length) :
    (arrayMove l (oi : Int) (ni : Int)).get? ni = some x := by
  have hoi : oi < l.length := by
    by_contra hc
    rw [List.get?_eq_none.mpr (by omega)] at hx
    exact Option.noConfusion hx
  rw [arrayMove_natCast_eq l oi ni x hx hni]
  have hlen := arrayMove_take_length l oi ni hoi hni
  rw [List.get?_append_right (by omega), hlen]
  simp

/-- Removing the moved element from the result of `arrayMove` restores the
list obtained by removing the dragged element from the original: all other
elements keep their relative order. -/
theorem arrayMove_eraseIdx_target (l : List Task) (oi ni : Nat) (x : Task)
    (hx : l.get? oi = some x) (hni : ni < l.length) :
    (arrayMove l (oi : Int) (ni : Int)).eraseIdx ni = l.eraseIdx oi := by
  have hoi : oi < l.length := by
    by_contra hc
    rw [List.get?_eq_none.mpr (by omega)] at hx
    exact Option.noConfusion hx
  rw [arrayMove_natCast_eq l oi ni x hx hni]
  have hlen := arrayMove_take_length l oi ni hoi hni
  calc ((l.eraseIdx oi).take ni ++ x :: (l.eraseIdx oi).drop ni).eraseIdx ni
      = ((l.eraseIdx oi).take ni ++ x :: (l.eraseIdx oi).drop ni).eraseIdx
          ((l.eraseIdx oi).take ni).length := by rw [hlen]
    _ = (l.eraseIdx oi).take ni ++ (l.eraseIdx oi).drop ni :=
          eraseIdx_append_cons _ _ _
    _ = l.eraseIdx oi := List.take_append_drop _ _

/-- When every per-row update succeeds, the loop issues one call per task,
setting each task's priority to its index, and reports success. -/
theorem runUpdates_all_ok (ok : Nat → Bool) (hok : ∀ k, ok k = true) :
    ∀ (l : List Task) (i : Nat),
      runUpdates ok l i =
        ((l.enumFrom i).map (fun p => (p.2.id, (p.1 : Int))), true) := by
  intro l
  induction l with
  | nil => intro i; rfl
  | cons t ts ih =>
    intro i
    unfold runUpdates
    rw [if_pos (hok i), ih (i + 1)]
    rfl

/-- When the call for index `k` is the first to fail, the loop issues
exactly the calls for indices `0..k` (relative to `i`) and reports
failure. -/
theorem runUpdates_first_fail (ok : Nat → Bool) :
    ∀ (l : List Task) (i k : Nat), k < l.length →
      (∀ j, j < k → ok (i + j) = true) → ok (i + k) = false →
      runUpdates ok l i =
        (((l.take (k + 1)).enumFrom i).map (fun p => (p.2.id, (p.1 : Int))),
         false) := by
  intro l
  induction l with
  | nil =>
    intro i k hk
    exact absurd hk (by simp)
  | cons t ts ih =>
    intro i k hk hpre hfail
    cases k with
    | zero =>
      have hf : ok i = false := by simpa using hfail
      unfold runUpdates
      rw [if_neg (by simp [hf])]
      rfl
    | succ m =>
      have h0 : ok i = true := by simpa using hpre 0 (Nat.succ_pos m)
      have hpre' : ∀ j, j < m → ok (i + 1 + j) = true := by
        intro j hj
        have h := hpre (j + 1) (by omega)
        rwa [show i + (j + 1) = i + 1 + j by omega] at h
      have hfail' : ok (i + 1 + m) = false := by
        rwa [show i + 1 + m = i + (m + 1) by omega]
      unfold runUpdates
      rw [if_pos h0, ih (i + 1) m (by simpa using hk) hpre' hfail']
      rfl

/-- C5: toggling sort while in priority mode switches to age mode with
descending order; toggling while in age mode flips only the direction and
never returns the mode to priority; hence from priority mode the first
toggle always lands on descending age order. -/
theorem toggleSort_cycle (o : SortOrder) :
    toggleSort ⟨SortType.priority, o⟩ = ⟨SortType.age, SortOrder.desc⟩ ∧
    toggleSort ⟨SortType.age, o⟩ = ⟨SortType.age, flipOrder o⟩ := by
  cases o <;> exact ⟨rfl, rfl⟩

/-- C6: boundary cases of the age label. An age of 0 elapsed minutes
yields "Just now"; 59 minutes yields "59 minutes ago"; 60 minutes yields
"1 hour ago"; 23 hours 59 minutes (1439 minutes) yields "23 hours ago";
24 hours yields "1 day ago"; 30 days yields "1 month ago". -/
theorem formatTaskAge_boundaries :
    formatTaskAge 0 0 = "Just now" ∧
    formatTaskAge 0 (59 * 60000) = "59 minutes ago" ∧
    formatTaskAge 0 (60 * 60000) = "1 hour ago" ∧
    formatTaskAge 0 (1439 * 60000) = "23 hours ago" ∧
    formatTaskAge 0 (1440 * 60000) = "1 day ago" ∧
    formatTaskAge 0 (43200 * 60000) = "1 month ago" := by
  refine ⟨?_, ?_, ?_, ?_, ?_, ?_⟩ <;> rfl

/-- C3: for every data operation (fetch, insert, delete, notes-update),
if the remote call fails, the in-memory state — task list, selection,
notes buffer and new-task input — is exactly what it was before the
call: local state is mutated only after the remote call reports
success. -/
theorem failedCall_leaves_state_unchanged (s : AppState) (user : Option String)
    (tid newNotes : String) :
    fetchTasks s user none = s ∧
    (addTask s user none).1 = s ∧
    removeTask s tid false = s ∧
    (updateNotes s newNotes false).1 = s := by
  refine ⟨?_, ?_, ?_, ?_⟩
  · cases user <;> rfl
  · unfold addTask
    split
    · rfl
    · cases user <;> rfl
  · rfl
  · unfold updateNotes
    cases s.selectedTask <;> rfl

/-- C4: for every successful delete of task id `tid`: `tid` is removed
from the local task list, and if the currently selected task has id
`tid` then both the active selection and the notes buffer are cleared;
if the selected task has a different id, the selection and notes buffer
(and the new-task input) are unchanged. -/
theorem removeTask_success_spec (s : AppState) (tid : String) :
    (removeTask s tid true).tasks = s.tasks.filter (fun t => t.id != tid) ∧
    (removeTask s tid true).selectedTask =
      (if s.selectedTask.any (fun t => t.id == tid) then none else s.selectedTask) ∧
    (removeTask s tid true).notes =
      (if s.selectedTask.any (fun t => t.id == tid) then "" else s.notes) ∧
    (removeTask s tid true).newTask = s.newTask := by
  by_cases h : s.selectedTask.any (fun t => t.id == tid) <;>
    simp [removeTask, h]

/-- C7: for every successful task creation, the issued insert request has
empty notes, priority equal to the number of tasks currently in the local
list, the entered text and the authenticated user's id; the returned row
is appended to the end of the local task list and the new-task input is
cleared. -/
theorem addTask_success_spec (s : AppState) (uid : String) (row : Task)
    (ht : jsTrim s.newTask ≠ "") :
    addTask s (some uid) (some row) =
      ({ s with tasks := s.tasks ++ [row], newTask := "" },
       some ⟨s.newTask, "", (s.tasks.length : Int), uid⟩) := by
  unfold addTask
  rw [if_neg ht]

/-- Witness for C7 at a concrete input. -/
theorem addTask_success_witness :
    addTask ⟨[wTask1], "buy milk", none, ""⟩ (some "u1") (some wTask2) =
      (⟨[wTask1, wTask2], "", none, ""⟩, some ⟨"buy milk", "", 1, "u1"⟩) :=
  addTask_success_spec ⟨[wTask1], "buy milk", none, ""⟩ "u1" wTask2 (by decide)

/-- C10: task creation is a guarded no-op: if the trimmed new-task text is
empty or no user is authenticated, no insert call is issued and the state
is unchanged; and every issued insert request has text whose trim is
non-empty (it contains a non-whitespace character). -/
theorem addTask_guard_spec (s : AppState) (user : Option String)
    (result : Option Task) :
    ((jsTrim s.newTask = "" ∨ user = none) → addTask s user result = (s, none)) ∧
    (∀ req, (addTask s user result).2 = some req → jsTrim req.text ≠ "") := by
  constructor
  · intro h
    unfold addTask
    rcases h with h | h
    · rw [if_pos h]
    · subst h
      split
      · rfl
      · rfl
  · intro req hreq
    unfold addTask at hreq
    by_cases h : jsTrim s.newTask = ""
    · rw [if_pos h] at hreq
      exact absurd hreq (by simp)
    · rw [if_neg h] at hreq
      cases user with
      | none => exact absurd hreq (by simp)
      | some uid =>
        cases result with
        | none =>
          simp only [Option.some.injEq] at hreq
          subst hreq
          exact h
        | some row =>
          simp only [Option.some.injEq] at hreq
          subst hreq
          exact h

/-- Witness for C10 at concrete inputs: a whitespace-only new-task text
is a no-op, and the request issued for the text "hi" has non-blank text. -/
theorem addTask_guard_witness :
    addTask ⟨[], "   ", none, ""⟩ (some "u1") none = (⟨[], "   ", none, ""⟩, none) ∧
    jsTrim (InsertReq.text ⟨"hi", "", 0, "u1"⟩) ≠ "" :=
  ⟨(addTask_guard_spec ⟨[], "   ", none, ""⟩ (some "u1") none).1 (Or.inl (by decide)),
   (addTask_guard_spec ⟨[], "hi", none, ""⟩ (some "u1") none).2 ⟨"hi", "", 0, "u1"⟩ (by decide)⟩

/-- C8: for every notes edit while a task is selected, exactly one
update-one call is issued, for the selected task's id with the new notes;
on success, in the local task list only tasks bearing the selected id have
their notes field changed — every other task, and every other field of the
selected task, is unchanged — and the selection and new-task input are
untouched. -/
theorem updateNotes_success_spec (s : AppState) (sel : Task) (newNotes : String)
    (hsel : s.selectedTask = some sel) :
    (updateNotes s newNotes true).2 = some (sel.id, newNotes) ∧
    ((updateNotes s newNotes true).1).notes = newNotes ∧
    ((updateNotes s newNotes true).1).tasks.length = s.tasks.length ∧
    (∀ i : Fin s.tasks.length,
      ((updateNotes s newNotes true).1).tasks[i.val]? =
        some (if (s.tasks.get i).id == sel.id
              then { s.tasks.get i with notes := newNotes }
              else s.tasks.get i)) ∧
    ((updateNotes s newNotes true).1).selectedTask = s.selectedTask ∧
    ((updateNotes s newNotes true).1).newTask = s.newTask := by
  unfold updateNotes
  rw [hsel]
  simp only [if_true]
  refine ⟨by simp, by simp, by simp, ?_, by simp, by simp⟩
  intro i
  simp only [List.getElem?_map]
  rw [List.getElem?_eq_getElem i.isLt]
  simp [List.get_eq_getElem]

/-- Witness for C8 at a concrete input: editing the notes of the selected
task `wTask2` to "new". -/
theorem updateNotes_success_witness :
    (updateNotes wState "new" true).2 = some ("b", "new") ∧
    ((updateNotes wState "new" true).1).notes = "new" ∧
    ((updateNotes wState "new" true).1).tasks[0]? = some wTask1 ∧
    ((updateNotes wState "new" true).1).tasks[1]? = some { wTask2 with notes := "new" } :=
  ⟨(updateNotes_success_spec wState wTask2 "new" rfl).1,
   (updateNotes_success_spec wState wTask2 "new" rfl).2.1,
   (updateNotes_success_spec wState wTask2 "new" rfl).2.2.2.1 ⟨0, by decide⟩,
   (updateNotes_success_spec wState wTask2 "new" rfl).2.2.2.1 ⟨1, by decide⟩⟩

/-- C1: for every reorder (drag end with distinct source and target items
both present in the list) in which all per-row update calls succeed, the
committed local task sequence is the old sequence with the dragged task
relocated to the target position (it sits at index `ni`, every other task
keeps its relative order, the length is unchanged), and the issued update
calls set each task's priority to its 0-based index in that new
sequence. -/
theorem handleDragEnd_success_spec (tasks : List Task) (activeId overId : String)
    (ok : Nat → Bool) (oi ni : Nat)
    (hne : activeId ≠ overId)
    (hoi : findIndex (fun t => t.id == activeId) tasks = (oi : Int))
    (hni : findIndex (fun t => t.id == overId) tasks = (ni : Int))
    (hok : ∀ k, ok k = true) :
    (handleDragEnd tasks activeId overId ok).1 =
      arrayMove tasks (oi : Int) (ni : Int) ∧
    (∃ d, tasks.get? oi = some d ∧ d.id = activeId ∧
      (arrayMove tasks (oi : Int) (ni : Int)).get? ni = some d) ∧
    (arrayMove tasks (oi : Int) (ni : Int)).eraseIdx ni = tasks.eraseIdx oi ∧
    (arrayMove tasks (oi : Int) (ni : Int)).length = tasks.length ∧
    (handleDragEnd tasks activeId overId ok).2 =
      (arrayMove tasks (oi : Int) (ni : Int)).enum.map
        (fun p => (p.2.id, (p.1 : Int))) := by
  obtain ⟨x, hx, hpx⟩ := findIndex_get? _ tasks oi hoi
  have hni_lt : ni < tasks.length := by
    have h := findIndex_lt_length (fun t => t.id == overId) tasks
    rw [hni] at h
    exact_mod_cast h
  have hbe : ¬ (activeId == overId) = true := by simp [hne]
  simp only [handleDragEnd]
  rw [if_neg hbe, hoi, hni, runUpdates_all_ok ok hok]
  exact ⟨rfl,
    ⟨x, hx, by simpa using hpx, arrayMove_get_target tasks oi ni x hx hni_lt⟩,
    arrayMove_eraseIdx_target tasks oi ni x hx hni_lt,
    arrayMove_length tasks oi ni x hx hni_lt, rfl⟩

/-- Witness for C1 at a concrete input: dragging task "a" onto task "c" in
the three-task list, with every update succeeding. -/
theorem handleDragEnd_success_witness :
    (handleDragEnd [wTask1, wTask2, wTask3] "a" "c" (fun _ => true)).1 =
      [wTask2, wTask3, wTask1] ∧
    (handleDragEnd [wTask1, wTask2, wTask3] "a" "c" (fun _ => true)).2 =
      [("b", 0), ("c", 1), ("a", 2)] := by
  have h := handleDragEnd_success_spec [wTask1, wTask2, wTask3] "a" "c"
      (fun _ => true) 0 2 (by decide) (by decide) (by decide) (fun _ => rfl)
  exact ⟨h.1.trans (by decide), h.2.2.2.2.trans (by decide)⟩

/-- C2: for every reorder, if the per-row update for the task at index `k`
of the new sequence is the first to fail, the issued calls are exactly
those for indices `0..k` — no call is issued for any task after it — and
the local task list is left exactly as it was before the reorder. -/
theorem handleDragEnd_failure_spec (tasks : List Task) (activeId overId : String)
    (ok : Nat → Bool) (oi ni k : Nat)
    (hne : activeId ≠ overId)
    (hoi : findIndex (fun t => t.id == activeId) tasks = (oi : Int))
    (hni : findIndex (fun t => t.id == overId) tasks = (ni : Int))
    (hk : k < tasks.length)
    (hfail : ok k = false)
    (hpre : ∀ j, j < k → ok j = true) :
    (handleDragEnd tasks activeId overId ok).1 = tasks ∧
    (handleDragEnd tasks activeId overId ok).2 =
      ((arrayMove tasks (oi : Int) (ni : Int)).take (k + 1)).enum.map
        (fun p => (p.2.id, (p.1 : Int))) ∧
    ((handleDragEnd tasks activeId overId ok).2).length = k + 1 := by
  obtain ⟨x, hx, hpx⟩ := findIndex_get? _ tasks oi hoi
  have hni_lt : ni < tasks.length := by
    have h := findIndex_lt_length (fun t => t.id == overId) tasks
    rw [hni] at h
    exact_mod_cast h
  have hlen := arrayMove_length tasks oi ni x hx hni_lt
  have hbe : ¬ (activeId == overId) = true := by simp [hne]
  have hrun := runUpdates_first_fail ok (arrayMove tasks (oi : Int) (ni : Int))
      0 k (by omega) (fun j hj => by simpa using hpre j hj) (by simpa using hfail)
  simp only [handleDragEnd]
  rw [if_neg hbe, hoi, hni, hrun]
  refine ⟨rfl, rfl, ?_⟩
  simp only [List.length_map, List.enumFrom_length, List.length_take]
  omega

/-- Witness for C2 at a concrete input: dragging task "a" onto task "c"
when the second update call (index 1) fails. -/
theorem handleDragEnd_failure_witness :
    (handleDragEnd [wTask1, wTask2, wTask3] "a" "c" (fun k => k == 0)).1 =
      [wTask1, wTask2, wTask3] ∧
    (handleDragEnd [wTask1, wTask2, wTask3] "a" "c" (fun k => k == 0)).2 =
      [("b", 0), ("c", 1)] := by
  have h := handleDragEnd_failure_spec [wTask1, wTask2, wTask3] "a" "c"
      (fun k => k == 0) 0 2 1 (by decide) (by decide) (by decide) (by decide)
      rfl (fun j hj => by interval_cases j; rfl)
  exact ⟨h.1, h.2.1.trans (by decide)⟩

/-- C9: adjacent-task navigation wraps around cyclically. When a task is
selected and found in the list at index `i`, 'next' yields the task at
index `(i + 1) % length` and 'prev' the task at index
`(i + length - 1) % length`; the result is `none` exactly when there is no
selected task, the list is empty, or the selected task's id is not present
in the list. -/
theorem getAdjacentTask_spec (tasks : List Task) (selected : Option Task)
    (dir : Direction) :
    (getAdjacentTask tasks selected dir = none ↔
      (selected = none ∨ tasks = [] ∨
       ∀ sel ∈ selected, ∀ t ∈ tasks, t.id ≠ sel.id)) ∧
    (∀ (sel : Task) (i : Nat), selected = some sel →
      findIndex (fun t => t.id == sel.id) tasks = (i : Int) →
      getAdjacentTask tasks selected Direction.next =
        tasks.get? ((i + 1) % tasks.length) ∧
      getAdjacentTask tasks selected Direction.prev =
        tasks.get? ((i + tasks.length - 1) % tasks.length)) := by
  constructor
  · cases selected with
    | none => simp [getAdjacentTask]
    | some sel =>
      by_cases hlen : tasks.length = 0
      · obtain rfl : tasks = [] := List.length_eq_zero.mp hlen
        simp [getAdjacentTask]
      · simp only [getAdjacentTask, if_neg hlen]
        by_cases hfi : findIndex (fun t => t.id == sel.id) tasks = -1
        · rw [if_pos hfi]
          refine iff_of_true rfl (Or.inr (Or.inr ?_))
          intro sel' hsel' t ht
          obtain rfl : sel = sel' := by simpa using hsel'
          have hb := (findIndex_eq_neg_one_iff _ tasks).mp hfi t ht
          simpa using hb
        · rw [if_neg hfi]
          have h0 : 0 ≤ findIndex (fun t => t.id == sel.id) tasks := by
            have := neg_one_le_findIndex (fun t => t.id == sel.id) tasks
            omega
          have hL : 0 < (tasks.length : Int) := by
            simp only [Nat.cast_pos]
            omega
          have hup := findIndex_lt_length (fun t => t.id == sel.id) tasks
          refine iff_of_false ?_ ?_
          · intro hnone
            rw [List.get?_eq_none] at hnone
            cases dir with
            | next =>
              dsimp only at hnone
              have ha := Int.emod_nonneg
                (findIndex (fun t => t.id == sel.id) tasks + 1)
                (by omega : (tasks.length : Int) ≠ 0)
              have hb := Int.emod_lt_of_pos
                (findIndex (fun t => t.id == sel.id) tasks + 1) hL
              omega
            | prev =>
              dsimp only at hnone
              have ha := Int.emod_nonneg
                (findIndex (fun t => t.id == sel.id) tasks - 1 +
                  (tasks.length : Int))
                (by omega : (tasks.length : Int) ≠ 0)
              have hb := Int.emod_lt_of_pos
                (findIndex (fun t => t.id == sel.id) tasks - 1 +
                  (tasks.length : Int)) hL
              omega
          · intro hor
            rcases hor with h | h | h
            · exact Option.noConfusion h
            · exact hlen (by simp [h])
            · refine hfi ((findIndex_eq_neg_one_iff _ tasks).mpr ?_)
              intro t ht
              have := h sel (by simp) t ht
              simpa using this
  · intro sel i hsel hfi
    subst hsel
    have hlt : i < tasks.length := by
      have h := findIndex_lt_length (fun t => t.id == sel.id) tasks
      rw [hfi] at h
      exact_mod_cast h
    have hlen : ¬ tasks.length = 0 := by omega
    constructor
    · simp only [getAdjacentTask, if_neg hlen]
      rw [hfi, if_neg (by omega : ¬ ((i : Int) = -1))]
      congr 1
    · simp only [getAdjacentTask, if_neg hlen]
      rw [hfi, if_neg (by omega : ¬ ((i : Int) = -1))]
      congr 1
      have e1 : (i : Int) - 1 + (tasks.length : Int) =
          ((i + tasks.length - 1 : Nat) : Int) := by omega
      rw [e1]
      omega

/-- Witness for C9 at a concrete input: with three tasks and the first one
selected, 'next' wraps to the second task and 'prev' wraps to the last. -/
theorem getAdjacentTask_witness :
    getAdjacentTask [wTask1, wTask2, wTask3] (some wTask1) Direction.next =
      some wTask2 ∧
    getAdjacentTask [wTask1, wTask2, wTask3] (some wTask1) Direction.prev =
      some wTask3 := by
  have h := (getAdjacentTask_spec [wTask1, wTask2, wTask3] (some wTask1)
      Direction.next).2 wTask1 0 rfl (by decide)
  exact ⟨h.1.trans (by decide), h.2.trans (by decide)⟩

end TwoDayTwoDo
